import Mathlib

/-!
Shallow embedding of the per-user task store of this repository
(`src/src/test_backend/main.mo`, the owner-scoped actor, together with the
candid service declaration that extends `Task` with a `comments` field and
the `addComment`/`getComments` operations).

Modelling choices:
* Motoko `Text` is a list of characters; `Principal` identities enter the
  store only through `Principal.toText`, so owners are carried as their
  text form.
* The `HashMap<Text, Task>` is an association list from keys to tasks:
  `put` replaces the value of an existing key in place and appends a fresh
  key, `remove` deletes the entry of the key, `get` is `List.lookup`.
* `Time.now()` is an effect; `addTask` takes the current time as an
  explicit argument.
* The `comments` field and the `addComment`/`getComments` operations are
  declared by the candid interface but their Motoko implementation is not
  among the repository files; they are modelled from the spec (append-only
  sequence, exact-key ownership check) and every other operation carries
  `comments` through unchanged.
-/

namespace TodoBackend

/-- Motoko `Text`, modelled as a list of characters. -/
abbrev MText := List Char

/-- Decimal digit characters of a natural number, most significant digit
first, accumulated onto `acc`; `fuel` bounds the recursion depth. -/
def natDigitsAux (fuel n : Nat) (acc : List Char) : List Char :=
  match fuel with
  | 0 => acc
  | fuel + 1 =>
      if n < 10 then Char.ofNat (48 + n) :: acc
      else natDigitsAux fuel (n / 10) (Char.ofNat (48 + n % 10) :: acc)

/-- The decimal representation of a natural number: the model of Motoko
`Nat.toText` as used by `makeTaskKey`. -/
def natToText (n : Nat) : List Char :=
  natDigitsAux (n + 1) n []

/-- The task record, as in the candid declaration: the Motoko record of
`main.mo` (id, title, description, completed, createdAt, owner) extended
with the `comments` sequence. -/
structure Task where
  id : Nat
  title : MText
  description : MText
  completed : Bool
  createdAt : Int
  owner : MText
  comments : List MText
deriving DecidableEq

/-- The actor's mutable state: the stable counter `nextTaskId` and the
`HashMap<Text, Task>` of tasks, modelled as an association list. -/
structure Store where
  nextTaskId : Nat
  tasks : List (MText × Task)
deriving DecidableEq

/-- `HashMap.put`: replace the value stored at an existing key in place,
append a binding for a fresh key. -/
def hmPut : List (MText × Task) → MText → Task → List (MText × Task)
  | [], k, v => [(k, v)]
  | e :: rest, k, v =>
      if e.1 = k then (k, v) :: rest else e :: hmPut rest k v

/-- `HashMap.remove`: delete the binding of the key (the first one, which
is the only one when keys are distinct). -/
def hmRemove : List (MText × Task) → MText → List (MText × Task)
  | [], _ => []
  | e :: rest, k => if e.1 = k then rest else e :: hmRemove rest k

/-- Composite key `"principal_taskId"`:
`Principal.toText(owner) # "_" # Nat.toText(taskId)`. -/
def makeTaskKey (owner : MText) (taskId : Nat) : MText :=
  owner ++ '_' :: natToText taskId

/-- Owner filter `"principal_"`: `Principal.toText(owner) # "_"`. -/
def makeUserPrefix (owner : MText) : MText :=
  owner ++ ['_']

/-- `addTask`: create a task with id `nextTaskId` for the caller, store it
at its composite key, bump the counter, return the id. -/
def addTask (st : Store) (caller title description : MText) (now : Int) :
    Store × Nat :=
  let taskId := st.nextTaskId
  let newTask : Task :=
    { id := taskId, title := title, description := description,
      completed := false, createdAt := now, owner := caller, comments := [] }
  let taskKey := makeTaskKey caller taskId
  ({ nextTaskId := st.nextTaskId + 1, tasks := hmPut st.tasks taskKey newTask },
   taskId)

/-- `getTasks`: every stored task whose key starts with the caller's
owner filter. -/
def getTasks (st : Store) (caller : MText) : List Task :=
  ((st.tasks.filter fun e => (makeUserPrefix caller).isPrefixOf e.1).map
    fun e => e.2)

/-- `getTaskById`: look the caller's composite key up. -/
def getTaskById (st : Store) (caller : MText) (id : Nat) : Option Task :=
  List.lookup (makeTaskKey caller id) st.tasks

/-- `toggleStatus`: flip `completed` of the task at the caller's composite
key, keeping every other field; `false` when the key is absent. -/
def toggleStatus (st : Store) (caller : MText) (id : Nat) : Store × Bool :=
  let taskKey := makeTaskKey caller id
  match List.lookup taskKey st.tasks with
  | none => (st, false)
  | some existingTask =>
      let updatedTask : Task :=
        { id := existingTask.id, title := existingTask.title,
          description := existingTask.description,
          completed := !existingTask.completed,
          createdAt := existingTask.createdAt,
          owner := existingTask.owner, comments := existingTask.comments }
      ({ st with tasks := hmPut st.tasks taskKey updatedTask }, true)

/-- `deleteTask`: remove the entry at the caller's composite key; `false`
when the key is absent. -/
def deleteTask (st : Store) (caller : MText) (id : Nat) : Store × Bool :=
  let taskKey := makeTaskKey caller id
  match List.lookup taskKey st.tasks with
  | none => (st, false)
  | some _ => ({ st with tasks := hmRemove st.tasks taskKey }, true)

/-- `getTaskCount`: the number of stored entries whose key starts with the
caller's owner filter. -/
def getTaskCount (st : Store) (caller : MText) : Nat :=
  (st.tasks.filter fun e => (makeUserPrefix caller).isPrefixOf e.1).length

/-- `getTasksByStatus`: the caller's tasks whose `completed` equals the
argument. -/
def getTasksByStatus (st : Store) (caller : MText) (completed : Bool) :
    List Task :=
  ((st.tasks.filter fun e =>
      (makeUserPrefix caller).isPrefixOf e.1 && e.2.completed == completed).map
    fun e => e.2)

/-- `clearCompletedTasks`: scan the caller's completed entries, remove each
of their keys, return how many were removed. -/
def clearCompletedTasks (st : Store) (caller : MText) : Store × Nat :=
  let completedTasks := st.tasks.filter fun e =>
    (makeUserPrefix caller).isPrefixOf e.1 && e.2.completed
  ({ st with tasks := completedTasks.foldl (fun m e => hmRemove m e.1) st.tasks },
   completedTasks.length)

/-- Modelled from the spec: `addComment` (declared in the candid interface,
implementation not among the repository files) looks the caller's composite
key up and appends the text to that task's `comments`, returning `true`;
`false` when the key is absent. -/
def addComment (st : Store) (caller : MText) (id : Nat) (text : MText) :
    Store × Bool :=
  let taskKey := makeTaskKey caller id
  match List.lookup taskKey st.tasks with
  | none => (st, false)
  | some t =>
      ({ st with
          tasks := hmPut st.tasks taskKey
            { t with comments := t.comments ++ [text] } }, true)

/-- Modelled from the spec: `getComments` (declared in the candid interface,
implementation not among the repository files) returns the comment sequence
of the task at the caller's composite key, empty when absent. -/
def getComments (st : Store) (caller : MText) (id : Nat) : List MText :=
  match List.lookup (makeTaskKey caller id) st.tasks with
  | none => []
  | some t => t.comments

/-- `preupgrade`: the durable flat representation, `tasksEntries` written
from the map's entries (the stable counter is carried alongside). -/
def preupgrade (st : Store) : Nat × List (MText × Task) :=
  (st.nextTaskId, st.tasks)

/-- `postupgrade`: rebuild a fresh map by `put`ting every durable entry,
with the counter restored from the stable variable. -/
def postupgrade (counter : Nat) (entries : List (MText × Task)) : Store :=
  { nextTaskId := counter,
    tasks := entries.foldl (fun m e => hmPut m e.1 e.2) [] }

/-- One request against the store, or the upgrade boundary. -/
inductive Op where
  | add (caller title description : MText) (now : Int)
  | toggle (caller : MText) (id : Nat)
  | delete (caller : MText) (id : Nat)
  | clear (caller : MText)
  | comment (caller : MText) (id : Nat) (text : MText)
  | upgrade

/-- The state transition of one operation (queries do not change state). -/
def applyOp (st : Store) : Op → Store
  | .add c t d n => (addTask st c t d n).1
  | .toggle c i => (toggleStatus st c i).1
  | .delete c i => (deleteTask st c i).1
  | .clear c => (clearCompletedTasks st c).1
  | .comment c i tx => (addComment st c i tx).1
  | .upgrade => postupgrade (preupgrade st).1 (preupgrade st).2

/-- Run a sequence of operations. -/
def run (st : Store) (ops : List Op) : Store :=
  ops.foldl applyOp st

/-- The initial state: `nextTaskId = 1`, no tasks. -/
def initStore : Store :=
  { nextTaskId := 1, tasks := [] }

/-- The value of a big-endian list of decimal digit characters; inverse of
`natToText`, used to prove it injective. -/
def digitsVal (l : List Char) : Nat :=
  l.foldl (fun a c => 10 * a + (c.toNat - 48)) 0

/-- The store invariant maintained by every operation: each stored id is
below the counter, each entry sits at the key encoded from its own
`(owner, id)` pair, and ids are globally distinct. -/
def StoreInv (st : Store) : Prop :=
  (∀ e ∈ st.tasks, e.2.id < st.nextTaskId) ∧
  (∀ e ∈ st.tasks, e.1 = makeTaskKey e.2.owner e.2.id) ∧
  (st.tasks.map fun e => e.2.id).Nodup

instance (st : Store) : Decidable (StoreInv st) :=
  inferInstanceAs (Decidable (_ ∧ _ ∧ _))

/-- Owner text tokens never contain the delimiter `'_'`; true of every
`Principal.toText` owner token (base32 groups joined by dashes). -/
def OwnersClean (st : Store) : Prop :=
  ∀ e ∈ st.tasks, '_' ∉ e.2.owner

instance (st : Store) : Decidable (OwnersClean st) :=
  inferInstanceAs (Decidable (∀ e ∈ st.tasks, '_' ∉ e.2.owner))

/-- A well-formed store: the invariant together with clean owner tokens. -/
def GoodStore (st : Store) : Prop :=
  StoreInv st ∧ OwnersClean st

instance (st : Store) : Decidable (GoodStore st) :=
  inferInstanceAs (Decidable (_ ∧ _))

/-- The caller identity an operation is invoked with, when it has one. -/
def opCaller : Op → Option MText
  | .add c _ _ _ => some c
  | .toggle c _ => some c
  | .delete c _ => some c
  | .clear c => some c
  | .comment c _ _ => some c
  | .upgrade => none

/-- Every operation of the sequence is invoked by a caller whose owner
token does not contain the delimiter `'_'`. -/
def CleanOps (ops : List Op) : Prop :=
  ∀ op ∈ ops, ∀ c, opCaller op = some c → '_' ∉ c

/-- Repeated `addComment` calls appending the given texts in order. -/
def addComments (st : Store) (caller : MText) (id : Nat)
    (texts : List MText) : Store :=
  texts.foldl (fun s tx => (addComment s caller id tx).1) st

/-- The first task created by the sample runs below. -/
def sampleTaskA : Task :=
  { id := 1, title := ['t'], description := ['d'], completed := false,
    createdAt := 0, owner := ['a'], comments := [] }

/-- A sample run: one task for owner `a`, one for owner `b`. -/
def sampleOps : List Op :=
  [Op.add ['a'] ['t'] ['d'] 0, Op.add ['b'] ['t'] ['d'] 0]

def sampleStore : Store :=
  run initStore sampleOps

/-- A sample run: owner `a` with three completed and two active tasks,
owner `b` with one task. -/
def clearOps : List Op :=
  [Op.add ['a'] ['t'] ['d'] 0, Op.add ['a'] ['t'] ['d'] 0,
   Op.add ['a'] ['t'] ['d'] 0, Op.add ['a'] ['t'] ['d'] 0,
   Op.add ['a'] ['t'] ['d'] 0, Op.toggle ['a'] 1, Op.toggle ['a'] 2,
   Op.toggle ['a'] 3, Op.add ['b'] ['t'] ['d'] 0]

def clearStore : Store :=
  run initStore clearOps

/-- A sample run: owner `a` with one completed task carrying one
comment. -/
def commentOps : List Op :=
  [Op.add ['a'] ['t'] ['d'] 0, Op.comment ['a'] 1 ['x'], Op.toggle ['a'] 1]

def commentStore : Store :=
  run initStore commentOps

/-- Every character the digit expansion produces is a decimal digit
character (or was already in the accumulator). -/
theorem natDigitsAux_mem (fuel : Nat) : ∀ n acc c, c ∈ natDigitsAux fuel n acc →
    c ∈ acc ∨ ∃ d, d < 10 ∧ c = Char.ofNat (48 + d) := by
  induction fuel with
  | zero => exact fun n acc c h => Or.inl h
  | succ fuel ih =>
    intro n acc c h
    by_cases hn : n < 10
    · simp only [natDigitsAux, if_pos hn, List.mem_cons] at h
      rcases h with h | h
      · exact Or.inr ⟨n, hn, h⟩
      · exact Or.inl h
    · simp only [natDigitsAux, if_neg hn] at h
      rcases ih (n / 10) _ c h with h' | h'
      · rcases List.mem_cons.mp h' with h'' | h''
        · exact Or.inr ⟨n % 10, Nat.mod_lt _ (by omega), h''⟩
        · exact Or.inl h''
      · exact Or.inr h'

/-- Decimal digit characters are not the key delimiter. -/
theorem digitChar_ne_underscore : ∀ d, d < 10 → Char.ofNat (48 + d) ≠ '_' := by
  decide

/-- The decimal representation of an id never contains the key
delimiter. -/
theorem underscore_not_mem_natToText (n : Nat) : '_' ∉ natToText n := by
  intro h
  rcases natDigitsAux_mem (n + 1) n [] '_' h with h' | ⟨d, hd, he⟩
  · simp at h'
  · exact digitChar_ne_underscore d hd he.symm

/-- The code of a decimal digit character. -/
theorem digitChar_toNat : ∀ d, d < 10 → (Char.ofNat (48 + d)).toNat = 48 + d := by
  decide

/-- The accumulator of the digit expansion is just appended. -/
theorem natDigitsAux_append (fuel : Nat) : ∀ n acc,
    natDigitsAux fuel n acc = natDigitsAux fuel n [] ++ acc := by
  induction fuel with
  | zero => intro n acc; rfl
  | succ fuel ih =>
    intro n acc
    by_cases hn : n < 10
    · simp [natDigitsAux, if_pos hn]
    · simp only [natDigitsAux, if_neg hn]
      rw [ih (n / 10) (Char.ofNat (48 + n % 10) :: acc),
        ih (n / 10) [Char.ofNat (48 + n % 10)], List.append_assoc]
      simp

/-- `digitsVal` peels the last digit. -/
theorem digitsVal_append_singleton (l : List Char) (c : Char) :
    digitsVal (l ++ [c]) = 10 * digitsVal l + (c.toNat - 48) := by
  simp [digitsVal, List.foldl_append]

/-- With enough fuel the digit expansion evaluates back to its input. -/
theorem digitsVal_natDigitsAux (fuel : Nat) : ∀ n, n < 10 ^ fuel →
    digitsVal (natDigitsAux fuel n []) = n := by
  induction fuel with
  | zero =>
    intro n hn
    rw [pow_zero] at hn
    have h0 : n = 0 := by omega
    subst h0; rfl
  | succ fuel ih =>
    intro n hn
    by_cases h : n < 10
    · simp only [natDigitsAux, if_pos h, digitsVal, List.foldl_cons,
        List.foldl_nil, digitChar_toNat n h]
      omega
    · have hdiv : n / 10 < 10 ^ fuel := by
        rw [Nat.div_lt_iff_lt_mul (by norm_num)]
        calc n < 10 ^ (fuel + 1) := hn
          _ = 10 ^ fuel * 10 := by ring
      simp only [natDigitsAux, if_neg h]
      rw [natDigitsAux_append, digitsVal_append_singleton, ih _ hdiv,
        digitChar_toNat _ (Nat.mod_lt _ (by omega))]
      omega

/-- `digitsVal` inverts `natToText`. -/
theorem digitsVal_natToText (n : Nat) : digitsVal (natToText n) = n := by
  apply digitsVal_natDigitsAux
  calc n < 10 ^ n := Nat.lt_pow_self (by norm_num) n
    _ ≤ 10 ^ (n + 1) := Nat.pow_le_pow_right (by norm_num) (Nat.le_succ n)

/-- The decimal representation is injective. -/
theorem natToText_inj {a b : Nat} (h : natToText a = natToText b) : a = b := by
  have ha := digitsVal_natToText a
  rw [h, digitsVal_natToText] at ha
  omega

/-- Two decompositions of one character list around a delimiter coincide
when the parts left of the delimiter are delimiter-free. -/
theorem underscore_split {a : List Char} : ∀ {b xs ys : List Char},
    '_' ∉ a → '_' ∉ b → a ++ '_' :: xs = b ++ '_' :: ys → a = b ∧ xs = ys := by
  induction a with
  | nil =>
    intro b xs ys _ hb h
    cases b with
    | nil =>
      simp only [List.nil_append, List.cons.injEq] at h
      exact ⟨rfl, h.2⟩
    | cons c bs =>
      simp only [List.nil_append, List.cons_append, List.cons.injEq] at h
      obtain ⟨h1, -⟩ := h
      subst h1
      simp at hb
  | cons x a ih =>
    intro b xs ys ha hb h
    cases b with
    | nil =>
      simp only [List.cons_append, List.nil_append, List.cons.injEq] at h
      obtain ⟨h1, -⟩ := h
      subst h1
      simp at ha
    | cons y bs =>
      simp only [List.cons_append, List.cons.injEq] at h
      obtain ⟨h1, h2⟩ := h
      have ha' : '_' ∉ a := fun hm => ha (List.mem_cons_of_mem _ hm)
      have hb' : '_' ∉ bs := fun hm => hb (List.mem_cons_of_mem _ hm)
      obtain ⟨hab, hxy⟩ := ih ha' hb' h2
      exact ⟨by rw [h1, hab], hxy⟩

/-- A delimiter-terminated owner filter is a prefix of a delimited key only
for the exact owner token. -/
theorem pfx_eq_owner {a b ys : List Char} (ha : '_' ∉ a) (hb : '_' ∉ b)
    (h : (a ++ ['_']) <+: (b ++ '_' :: ys)) : a = b := by
  obtain ⟨t, ht⟩ := h
  have ht' : a ++ '_' :: t = b ++ '_' :: ys := by simpa using ht
  exact (underscore_split ha hb ht').1

/-- The composite key encoding is injective: equal keys come from the same
owner token and the same id. -/
theorem makeTaskKey_inj {o1 o2 : MText} {i1 i2 : Nat}
    (h : makeTaskKey o1 i1 = makeTaskKey o2 i2) : o1 = o2 ∧ i1 = i2 := by
  have hr : (natToText i1).reverse ++ '_' :: o1.reverse
      = (natToText i2).reverse ++ '_' :: o2.reverse := by
    have hc := congrArg List.reverse h
    simpa [makeTaskKey, List.reverse_append] using hc
  have h1 : '_' ∉ (natToText i1).reverse := by
    simpa using underscore_not_mem_natToText i1
  have h2 : '_' ∉ (natToText i2).reverse := by
    simpa using underscore_not_mem_natToText i2
  obtain ⟨hd, ho⟩ := underscore_split h1 h2 hr
  exact ⟨List.reverse_injective ho, natToText_inj (List.reverse_injective hd)⟩

/-- The owner filter of `a` matches the key of `(o, i)` exactly when the
owner tokens are equal, for delimiter-free tokens. -/
theorem userFilterMatch {a o : MText} (i : Nat) (ha : '_' ∉ a) (ho : '_' ∉ o) :
    (makeUserPrefix a).isPrefixOf (makeTaskKey o i) = true ↔ a = o := by
  simp only [makeUserPrefix, makeTaskKey, List.isPrefixOf_iff_prefix]
  constructor
  · exact fun h => pfx_eq_owner ha ho h
  · rintro rfl
    exact ⟨natToText i, by simp⟩

/-- Looking up the key just put. -/
theorem lookup_hmPut_self (m : List (MText × Task)) (k : MText) (v : Task) :
    (hmPut m k v).lookup k = some v := by
  induction m with
  | nil => simp [hmPut]
  | cons e m ih =>
    obtain ⟨k', v'⟩ := e
    by_cases h : k' = k
    · subst h; simp [hmPut]
    · simpa [hmPut, h, List.lookup_cons, beq_eq_false_iff_ne.mpr (Ne.symm h)]
        using ih

/-- `put` leaves the lookup of every other key unchanged. -/
theorem lookup_hmPut_ne (m : List (MText × Task)) {k k2 : MText} (v : Task)
    (h : k2 ≠ k) : (hmPut m k v).lookup k2 = m.lookup k2 := by
  induction m with
  | nil => simp [hmPut, List.lookup_cons, beq_eq_false_iff_ne.mpr h]
  | cons e m ih =>
    obtain ⟨k', v'⟩ := e
    by_cases h' : k' = k
    · subst h'
      simp [hmPut, List.lookup_cons, beq_eq_false_iff_ne.mpr h]
    · by_cases h2 : k2 = k'
      · subst h2; simp [hmPut, h', List.lookup_cons]
      · simpa [hmPut, h', List.lookup_cons,
          beq_eq_false_iff_ne.mpr h2] using ih

/-- `put`ting back the value already stored is the identity. -/
theorem hmPut_lookup_eq {m : List (MText × Task)} {k : MText} {v : Task}
    (h : m.lookup k = some v) : hmPut m k v = m := by
  induction m with
  | nil => simp at h
  | cons e m ih =>
    obtain ⟨k', v'⟩ := e
    by_cases h' : k' = k
    · subst h'
      simp only [List.lookup_cons_self, Option.some.injEq] at h
      simp [hmPut, h]
    · rw [List.lookup_cons] at h
      rw [beq_eq_false_iff_ne.mpr (Ne.symm h')] at h
      simp only [hmPut, if_neg h']
      rw [ih h]

/-- A key looks up to `none` exactly when it is not among the stored
keys. -/
theorem lookup_none_iff (m : List (MText × Task)) (k : MText) :
    m.lookup k = none ↔ k ∉ m.map Prod.fst := by
  induction m with
  | nil => simp
  | cons e m ih =>
    obtain ⟨k', v'⟩ := e
    by_cases h : k = k'
    · subst h
      rw [List.lookup_cons_self]
      simp only [List.map_cons, List.mem_cons, not_or]
      exact Iff.intro (fun h' => by cases h') (fun h' => absurd trivial h'.1)
    · simp only [List.lookup_cons, beq_eq_false_iff_ne.mpr h, List.map_cons,
        List.mem_cons, not_or, ih]
      exact (and_iff_right h).symm

/-- `put` of an absent key appends the new binding. -/
theorem hmPut_not_mem {m : List (MText × Task)} {k : MText} (v : Task)
    (h : k ∉ m.map Prod.fst) : hmPut m k v = m ++ [(k, v)] := by
  induction m with
  | nil => rfl
  | cons e m ih =>
    simp only [List.map_cons, List.mem_cons, not_or] at h
    simp only [hmPut, if_neg (Ne.symm h.1), List.cons_append]
    rw [ih h.2]

/-- A successful lookup splits the list around its unique binding. -/
theorem lookup_decomp {m : List (MText × Task)} {k : MText} {v : Task}
    (h : m.lookup k = some v) :
    ∃ m₁ m₂, m = m₁ ++ (k, v) :: m₂ ∧ k ∉ m₁.map Prod.fst := by
  obtain ⟨m₁, m₂, hm, hk⟩ := List.lookup_eq_some_iff.mp h
  refine ⟨m₁, m₂, hm, fun hmem => ?_⟩
  obtain ⟨p, hp, hp1⟩ := List.mem_map.mp hmem
  exact bne_iff_ne.mp (hk p hp) hp1.symm

/-- `put` of a present key rewrites the binding in place. -/
theorem hmPut_append_left {m₁ : List (MText × Task)} {k : MText}
    (v w : Task) (m₂ : List (MText × Task)) (h : k ∉ m₁.map Prod.fst) :
    hmPut (m₁ ++ (k, v) :: m₂) k w = m₁ ++ (k, w) :: m₂ := by
  induction m₁ with
  | nil => simp [hmPut]
  | cons e m₁ ih =>
    simp only [List.map_cons, List.mem_cons, not_or] at h
    show hmPut (e :: (m₁ ++ (k, v) :: m₂)) k w = e :: (m₁ ++ (k, w) :: m₂)
    simp only [hmPut, if_neg (Ne.symm h.1)]
    rw [ih h.2]

/-- `remove` of a present key deletes exactly its binding. -/
theorem hmRemove_append_left {m₁ : List (MText × Task)} {k : MText}
    (v : Task) (m₂ : List (MText × Task)) (h : k ∉ m₁.map Prod.fst) :
    hmRemove (m₁ ++ (k, v) :: m₂) k = m₁ ++ m₂ := by
  induction m₁ with
  | nil => simp [hmRemove]
  | cons e m₁ ih =>
    simp only [List.map_cons, List.mem_cons, not_or] at h
    show hmRemove (e :: (m₁ ++ (k, v) :: m₂)) k = e :: (m₁ ++ m₂)
    simp only [hmRemove, if_neg (Ne.symm h.1)]
    rw [ih h.2]

/-- `remove` of an absent key is the identity. -/
theorem hmRemove_not_mem {m : List (MText × Task)} {k : MText}
    (h : k ∉ m.map Prod.fst) : hmRemove m k = m := by
  induction m with
  | nil => rfl
  | cons e m ih =>
    simp only [List.map_cons, List.mem_cons, not_or] at h
    simp only [hmRemove, if_neg (Ne.symm h.1)]
    rw [ih h.2]

/-- `remove` yields a sublist. -/
theorem hmRemove_sublist (m : List (MText × Task)) (k : MText) :
    (hmRemove m k).Sublist m := by
  induction m with
  | nil => simp [hmRemove]
  | cons e m ih =>
    by_cases h : e.1 = k
    · simp [hmRemove, h]
    · simpa [hmRemove, h] using ih.cons₂ e

/-- Folding `remove` over any entry list yields a sublist. -/
theorem foldl_hmRemove_sublist (l : List (MText × Task)) :
    ∀ m, (l.foldl (fun acc e => hmRemove acc e.1) m).Sublist m := by
  induction l with
  | nil => intro m; simp
  | cons e l ih =>
    intro m
    exact (ih (hmRemove m e.1)).trans (hmRemove_sublist m e.1)

/-- Rebuilding by `put` appends entries whose keys are fresh and mutually
distinct. -/
theorem foldl_hmPut_append (l : List (MText × Task)) :
    ∀ m, (m.map Prod.fst ++ l.map Prod.fst).Nodup →
      l.foldl (fun acc e => hmPut acc e.1 e.2) m = m ++ l := by
  induction l with
  | nil => intro m _; simp
  | cons e l ih =>
    intro m h
    have hk : e.1 ∉ m.map Prod.fst := fun hmem =>
      List.disjoint_of_nodup_append h hmem (List.mem_cons_self _ _)
    simp only [List.foldl_cons]
    rw [hmPut_not_mem e.2 hk]
    have h' : ((m ++ [(e.1, e.2)]).map Prod.fst ++ l.map Prod.fst).Nodup := by
      simpa [List.append_assoc] using h
    rw [ih (m ++ [(e.1, e.2)]) h']
    simp

/-- `remove` of the head key. -/
theorem hmRemove_cons_self (e : MText × Task) (m : List (MText × Task)) :
    hmRemove (e :: m) e.1 = m := by
  simp [hmRemove]

/-- `remove` of another key skips the head. -/
theorem hmRemove_cons_ne (e : MText × Task) (m : List (MText × Task))
    {k : MText} (h : e.1 ≠ k) : hmRemove (e :: m) k = e :: hmRemove m k := by
  simp [hmRemove, h]

/-- Folding `remove` over keys different from the head keeps the head. -/
theorem foldl_hmRemove_cons (e : MText × Task) (l : List (MText × Task)) :
    ∀ m, (∀ q ∈ l, q.1 ≠ e.1) →
      l.foldl (fun acc q => hmRemove acc q.1) (e :: m)
        = e :: l.foldl (fun acc q => hmRemove acc q.1) m := by
  induction l with
  | nil => intro m _; rfl
  | cons q l ih =>
    intro m h
    simp only [List.foldl_cons]
    rw [hmRemove_cons_ne e m (Ne.symm (h q (List.mem_cons_self q l)))]
    exact ih (hmRemove m q.1) fun p hp => h p (List.mem_cons_of_mem q hp)

/-- Scan-then-delete: folding `remove` over the entries selected by `p`
keeps exactly the entries rejected by `p`, when keys are distinct. -/
theorem foldl_hmRemove_filter (p : MText × Task → Bool)
    (m : List (MText × Task)) : (m.map Prod.fst).Nodup →
      (m.filter p).foldl (fun acc q => hmRemove acc q.1) m
        = m.filter fun q => !(p q) := by
  induction m with
  | nil => intro _; rfl
  | cons e m ih =>
    intro h
    simp only [List.map_cons, List.nodup_cons] at h
    obtain ⟨he, hm⟩ := h
    by_cases hp : p e
    · rw [List.filter_cons_of_pos hp, List.foldl_cons, hmRemove_cons_self,
        List.filter_cons_of_neg (by simp [hp]), ih hm]
    · have hp' : p e = false := by simpa using hp
      rw [List.filter_cons_of_neg (by simp [hp']),
        List.filter_cons_of_pos (by simp [hp']),
        foldl_hmRemove_cons e (m.filter p) m fun q hq hqe =>
          he (hqe ▸ List.mem_map.mpr ⟨q, List.mem_of_mem_filter hq, rfl⟩),
        ih hm]

/-- A successful lookup's binding is an entry of the list. -/
theorem mem_of_lookup {m : List (MText × Task)} {k : MText} {v : Task}
    (h : m.lookup k = some v) : (k, v) ∈ m := by
  obtain ⟨m₁, m₂, hm, -⟩ := lookup_decomp h
  rw [hm]
  simp

/-- Coherent keys and distinct ids give distinct keys. -/
theorem keys_nodup_of_inv {st : Store} (h : StoreInv st) :
    (st.tasks.map Prod.fst).Nodup := by
  obtain ⟨-, hco, hids⟩ := h
  rw [List.map_congr_left hco]
  exact List.Nodup.map_on
    (fun x hx y hy hxy =>
      List.inj_on_of_nodup_map hids hx hy (makeTaskKey_inj hxy).2)
    (List.Nodup.of_map _ hids)

/-- In a coherent store, the task found at the key of `(c, i)` is owned by
`c` and has id `i`. -/
theorem lookup_key_owner {st : Store} (h : StoreInv st) {c : MText} {i : Nat}
    {t : Task} (hl : st.tasks.lookup (makeTaskKey c i) = some t) :
    t.owner = c ∧ t.id = i := by
  have hco := h.2.1 _ (mem_of_lookup hl)
  have hinj := makeTaskKey_inj hco
  exact ⟨hinj.1.symm, hinj.2.symm⟩

/-- The upgrade round-trip is the identity on stores with distinct keys. -/
theorem postupgrade_preupgrade {st : Store}
    (h : (st.tasks.map Prod.fst).Nodup) :
    postupgrade (preupgrade st).1 (preupgrade st).2 = st := by
  have hfold := foldl_hmPut_append st.tasks [] (by simpa using h)
  simp only [postupgrade, preupgrade] at *
  rw [hfold]
  simp

/-- `addTask` written out. -/
theorem addTask_def (st : Store) (c t d : MText) (n : Int) :
    addTask st c t d n =
      ({ nextTaskId := st.nextTaskId + 1,
         tasks := hmPut st.tasks (makeTaskKey c st.nextTaskId)
           { id := st.nextTaskId, title := t, description := d,
             completed := false, createdAt := n, owner := c, comments := [] } },
       st.nextTaskId) := rfl

/-- An entry of `put`'s result is an old entry or the new binding. -/
theorem mem_hmPut {m : List (MText × Task)} {k : MText} {v : Task}
    {e : MText × Task} (h : e ∈ hmPut m k v) : e ∈ m ∨ e = (k, v) := by
  induction m with
  | nil =>
    simp only [hmPut, List.mem_singleton] at h
    exact Or.inr h
  | cons q m ih =>
    by_cases hq : q.1 = k
    · simp only [hmPut, if_pos hq, List.mem_cons] at h
      rcases h with h | h
      · exact Or.inr h
      · exact Or.inl (List.mem_cons_of_mem _ h)
    · simp only [hmPut, if_neg hq, List.mem_cons] at h
      rcases h with h | h
      · exact Or.inl (by simp [h])
      · rcases ih h with h' | h'
        · exact Or.inl (List.mem_cons_of_mem _ h')
        · exact Or.inr h'

/-- The key of the next fresh id is absent from a coherent store. -/
theorem fresh_key_not_mem {st : Store} (h : StoreInv st) (c : MText) :
    makeTaskKey c st.nextTaskId ∉ st.tasks.map Prod.fst := by
  intro hmem
  obtain ⟨e, he, hke⟩ := List.mem_map.mp hmem
  have hco := h.2.1 e he
  have hinj := (makeTaskKey_inj (hke.symm.trans hco)).2
  have hlt := h.1 e he
  omega

/-- `addTask` preserves the store invariant. -/
theorem addTask_inv {st : Store} (h : StoreInv st) (c t d : MText) (n : Int) :
    StoreInv (addTask st c t d n).1 := by
  have hfresh := fresh_key_not_mem h c
  obtain ⟨hb, hco, hids⟩ := h
  rw [addTask_def]
  simp only [StoreInv]
  rw [hmPut_not_mem _ hfresh]
  refine ⟨?_, ?_, ?_⟩
  · intro e he
    rcases List.mem_append.mp he with he' | he'
    · exact Nat.lt_succ_of_lt (hb e he')
    · simp only [List.mem_singleton] at he'
      subst he'
      exact Nat.lt_succ_self _
  · intro e he
    rcases List.mem_append.mp he with he' | he'
    · exact hco e he'
    · simp only [List.mem_singleton] at he'
      subst he'
      rfl
  · rw [List.map_append]
    refine List.Nodup.append hids (by simp) ?_
    intro a ha ha2
    simp only [List.map_cons, List.map_nil, List.mem_singleton] at ha2
    obtain ⟨e, he, hea⟩ := List.mem_map.mp ha
    have := hb e he
    omega

/-- Replacing the binding at a present key by a task with the same owner
and id preserves the store invariant. -/
theorem inv_replace {st : Store} (h : StoreInv st) {k : MText} {t t2 : Task}
    (hl : st.tasks.lookup k = some t) (ho : t2.owner = t.owner)
    (hi : t2.id = t.id) :
    StoreInv { st with tasks := hmPut st.tasks k t2 } := by
  obtain ⟨m₁, m₂, hm, hk⟩ := lookup_decomp hl
  obtain ⟨hb, hco, hids⟩ := h
  rw [hm] at hb hco hids
  simp only [StoreInv, hm, hmPut_append_left t t2 m₂ hk]
  refine ⟨?_, ?_, ?_⟩
  · intro e he
    simp only [List.mem_append, List.mem_cons] at he
    rcases he with he | he | he
    · exact hb e (by simp [he])
    · subst he
      simpa [hi] using hb (k, t) (by simp)
    · exact hb e (by simp [he])
  · intro e he
    simp only [List.mem_append, List.mem_cons] at he
    rcases he with he | he | he
    · exact hco e (by simp [he])
    · subst he
      have := hco (k, t) (by simp)
      simpa [hi, ho] using this
    · exact hco e (by simp [he])
  · have hmap : (m₁ ++ (k, t2) :: m₂).map (fun e => e.2.id)
        = (m₁ ++ (k, t) :: m₂).map fun e => e.2.id := by
      simp [hi]
    rw [hmap]
    exact hids

/-- The invariant restricts to any sublist of the task list. -/
theorem inv_sublist {st : Store} (h : StoreInv st) {l : List (MText × Task)}
    (hs : l.Sublist st.tasks) : StoreInv { st with tasks := l } := by
  obtain ⟨hb, hco, hids⟩ := h
  exact ⟨fun e he => hb e (hs.subset he), fun e he => hco e (hs.subset he),
    List.Nodup.sublist (hs.map fun e => e.2.id) hids⟩

/-- `toggleStatus` preserves the store invariant. -/
theorem toggleStatus_inv {st : Store} (h : StoreInv st) (c : MText) (i : Nat) :
    StoreInv (toggleStatus st c i).1 := by
  simp only [toggleStatus]
  cases hl : st.tasks.lookup (makeTaskKey c i) with
  | none => exact h
  | some t => exact inv_replace h hl rfl rfl

/-- `addComment` preserves the store invariant. -/
theorem addComment_inv {st : Store} (h : StoreInv st) (c : MText) (i : Nat)
    (tx : MText) : StoreInv (addComment st c i tx).1 := by
  simp only [addComment]
  cases hl : st.tasks.lookup (makeTaskKey c i) with
  | none => exact h
  | some t => exact inv_replace h hl rfl rfl

/-- `deleteTask` preserves the store invariant. -/
theorem deleteTask_inv {st : Store} (h : StoreInv st) (c : MText) (i : Nat) :
    StoreInv (deleteTask st c i).1 := by
  simp only [deleteTask]
  cases hl : st.tasks.lookup (makeTaskKey c i) with
  | none => exact h
  | some t => exact inv_sublist h (hmRemove_sublist _ _)

/-- `clearCompletedTasks` preserves the store invariant. -/
theorem clearCompletedTasks_inv {st : Store} (h : StoreInv st) (c : MText) :
    StoreInv (clearCompletedTasks st c).1 :=
  inv_sublist h (foldl_hmRemove_sublist _ _)

/-- Every operation preserves the store invariant. -/
theorem applyOp_inv {st : Store} (h : StoreInv st) (op : Op) :
    StoreInv (applyOp st op) := by
  cases op with
  | add c t d n => exact addTask_inv h c t d n
  | toggle c i => exact toggleStatus_inv h c i
  | delete c i => exact deleteTask_inv h c i
  | clear c => exact clearCompletedTasks_inv h c
  | comment c i tx => exact addComment_inv h c i tx
  | upgrade => rw [applyOp, postupgrade_preupgrade (keys_nodup_of_inv h)]; exact h

/-- `toggleStatus` never changes the counter. -/
theorem toggleStatus_counter (st : Store) (c : MText) (i : Nat) :
    (toggleStatus st c i).1.nextTaskId = st.nextTaskId := by
  simp only [toggleStatus]
  cases st.tasks.lookup (makeTaskKey c i) <;> rfl

/-- `deleteTask` never changes the counter. -/
theorem deleteTask_counter (st : Store) (c : MText) (i : Nat) :
    (deleteTask st c i).1.nextTaskId = st.nextTaskId := by
  simp only [deleteTask]
  cases st.tasks.lookup (makeTaskKey c i) <;> rfl

/-- `addComment` never changes the counter. -/
theorem addComment_counter (st : Store) (c : MText) (i : Nat) (tx : MText) :
    (addComment st c i tx).1.nextTaskId = st.nextTaskId := by
  simp only [addComment]
  cases st.tasks.lookup (makeTaskKey c i) <;> rfl

/-- The counter never decreases across an operation. -/
theorem applyOp_counter_mono (st : Store) (op : Op) :
    st.nextTaskId ≤ (applyOp st op).nextTaskId := by
  cases op with
  | add c t d n => rw [applyOp, addTask_def]; exact Nat.le_succ _
  | toggle c i => rw [applyOp, toggleStatus_counter]
  | delete c i => rw [applyOp, deleteTask_counter]
  | clear c => exact Nat.le_refl _
  | comment c i tx => rw [applyOp, addComment_counter]
  | upgrade => exact Nat.le_refl _

/-- The counter never decreases across a run. -/
theorem run_counter_mono (ops : List Op) :
    ∀ st : Store, st.nextTaskId ≤ (run st ops).nextTaskId := by
  induction ops with
  | nil => exact fun st => Nat.le_refl _
  | cons op ops ih =>
    intro st
    exact (applyOp_counter_mono st op).trans (ih (applyOp st op))

/-- Every operation with a clean caller preserves owner cleanliness. -/
theorem applyOp_clean {st : Store} (hinv : StoreInv st) (hcl : OwnersClean st)
    (op : Op) (hc : ∀ c, opCaller op = some c → '_' ∉ c) :
    OwnersClean (applyOp st op) := by
  cases op with
  | add c t d n =>
    intro e he
    rw [applyOp, addTask_def] at he
    rcases mem_hmPut he with he' | he'
    · exact hcl e he'
    · subst he'
      exact hc c rfl
  | toggle c i =>
    intro e he
    simp only [applyOp, toggleStatus] at he
    cases hl : st.tasks.lookup (makeTaskKey c i) with
    | none => rw [hl] at he; exact hcl e he
    | some t =>
      rw [hl] at he
      rcases mem_hmPut he with he' | he'
      · exact hcl e he'
      · subst he'
        exact hcl (makeTaskKey c i, t) (mem_of_lookup hl)
  | delete c i =>
    intro e he
    simp only [applyOp, deleteTask] at he
    cases hl : st.tasks.lookup (makeTaskKey c i) with
    | none => rw [hl] at he; exact hcl e he
    | some t =>
      rw [hl] at he
      exact hcl e ((hmRemove_sublist _ _).subset he)
  | clear c =>
    intro e he
    exact hcl e ((foldl_hmRemove_sublist _ _).subset he)
  | comment c i tx =>
    intro e he
    simp only [applyOp, addComment] at he
    cases hl : st.tasks.lookup (makeTaskKey c i) with
    | none => rw [hl] at he; exact hcl e he
    | some t =>
      rw [hl] at he
      rcases mem_hmPut he with he' | he'
      · exact hcl e he'
      · subst he'
        exact hcl (makeTaskKey c i, t) (mem_of_lookup hl)
  | upgrade =>
    rw [applyOp, postupgrade_preupgrade (keys_nodup_of_inv hinv)]
    exact hcl

/-- A run from a well-formed store with clean callers stays well formed. -/
theorem run_good (ops : List Op) :
    ∀ st : Store, GoodStore st → CleanOps ops → GoodStore (run st ops) := by
  induction ops with
  | nil => exact fun st h _ => h
  | cons op ops ih =>
    intro st h hc
    refine ih (applyOp st op) ⟨applyOp_inv h.1 op, ?_⟩ ?_
    · exact applyOp_clean h.1 h.2 op (hc op (List.mem_cons_self _ _))
    · exact fun q hq => hc q (List.mem_cons_of_mem _ hq)

/-- A run from a store satisfying the invariant keeps it. -/
theorem run_inv (ops : List Op) :
    ∀ st : Store, StoreInv st → StoreInv (run st ops) := by
  induction ops with
  | nil => exact fun st h => h
  | cons op ops ih => exact fun st h => ih (applyOp st op) (applyOp_inv h op)

/-- The empty store satisfies the invariant. -/
theorem initStore_inv : StoreInv initStore := by
  refine ⟨?_, ?_, ?_⟩ <;> simp [initStore]

/-- Every reachable store satisfies the invariant. -/
theorem reachable_inv (ops : List Op) : StoreInv (run initStore ops) :=
  run_inv ops initStore initStore_inv

/-- Every store reached by clean callers is well formed. -/
theorem reachable_good (ops : List Op) (h : CleanOps ops) :
    GoodStore (run initStore ops) :=
  run_good ops initStore ⟨initStore_inv, by intro e he; simp [initStore] at he⟩ h

/-- Pointwise, in a well-formed store the prefix test of the enumeration
equals the exact owner comparison. -/
theorem filter_test_eq {st : Store} (h : GoodStore st) {A : MText}
    (hA : '_' ∉ A) : ∀ e ∈ st.tasks,
    (makeUserPrefix A).isPrefixOf e.1 = decide (e.2.owner = A) := by
  intro e he
  have hco := h.1.2.1 e he
  have hcl := h.2 e he
  rw [hco]
  by_cases ho : e.2.owner = A
  · rw [decide_eq_true ho]
    exact (userFilterMatch e.2.id hA hcl).mpr ho.symm
  · rw [decide_eq_false ho]
    exact Bool.eq_false_iff.mpr
      fun hp => ho ((userFilterMatch e.2.id hA hcl).mp hp).symm

/-- `getTasks` of a well-formed store: exactly the caller's records. -/
theorem getTasks_eq {st : Store} (h : GoodStore st) {A : MText}
    (hA : '_' ∉ A) :
    getTasks st A
      = (st.tasks.filter fun e => decide (e.2.owner = A)).map fun e => e.2 := by
  unfold getTasks
  rw [List.filter_congr (filter_test_eq h hA)]

/-- `getTaskCount` of a well-formed store: the number of the caller's
records. -/
theorem getTaskCount_eq {st : Store} (h : GoodStore st) {A : MText}
    (hA : '_' ∉ A) :
    getTaskCount st A
      = (st.tasks.filter fun e => decide (e.2.owner = A)).length := by
  unfold getTaskCount
  rw [List.filter_congr (filter_test_eq h hA)]

/-- `getTasksByStatus` of a well-formed store: exactly the caller's records
of that status. -/
theorem getTasksByStatus_eq {st : Store} (h : GoodStore st) {A : MText}
    (hA : '_' ∉ A) (b : Bool) :
    getTasksByStatus st A b
      = ((st.tasks.filter fun e =>
          decide (e.2.owner = A) && e.2.completed == b).map fun e => e.2) := by
  unfold getTasksByStatus
  rw [List.filter_congr fun e he => by rw [filter_test_eq h hA e he]]

/-- `clearCompletedTasks` of a well-formed store: keeps exactly the entries
that are not the caller's completed ones. -/
theorem clearCompletedTasks_tasks_eq {st : Store} (h : GoodStore st)
    {A : MText} (hA : '_' ∉ A) :
    (clearCompletedTasks st A).1.tasks
      = st.tasks.filter fun e =>
          !(decide (e.2.owner = A) && e.2.completed) := by
  have hkeys := keys_nodup_of_inv h.1
  show (st.tasks.filter fun e =>
      (makeUserPrefix A).isPrefixOf e.1 && e.2.completed).foldl
        (fun acc q => hmRemove acc q.1) st.tasks = _
  rw [foldl_hmRemove_filter _ _ hkeys]
  exact List.filter_congr fun e he => by rw [filter_test_eq h hA e he]

/-- `clearCompletedTasks` of a well-formed store returns the number of the
caller's completed records. -/
theorem clearCompletedTasks_count_eq {st : Store} (h : GoodStore st)
    {A : MText} (hA : '_' ∉ A) :
    (clearCompletedTasks st A).2
      = (st.tasks.filter fun e =>
          decide (e.2.owner = A) && e.2.completed).length := by
  show (st.tasks.filter fun e =>
      (makeUserPrefix A).isPrefixOf e.1 && e.2.completed).length = _
  rw [List.filter_congr fun e he => by rw [filter_test_eq h hA e he]]

/-- `toggleStatus` leaves the records of every other owner unchanged. -/
theorem toggleStatus_frame {st : Store} (h : StoreInv st) {A B : MText}
    (hAB : A ≠ B) (i : Nat) :
    ((toggleStatus st A i).1.tasks.filter fun e => decide (e.2.owner = B))
      = st.tasks.filter fun e => decide (e.2.owner = B) := by
  cases hl : st.tasks.lookup (makeTaskKey A i) with
  | none => simp only [toggleStatus, hl]
  | some t =>
    have hown := (lookup_key_owner h hl).1
    obtain ⟨m₁, m₂, hm, hk⟩ := lookup_decomp hl
    simp only [toggleStatus, hl]
    rw [hm, hmPut_append_left t _ m₂ hk]
    have hB : decide (t.owner = B) = false :=
      decide_eq_false fun he => hAB (hown.symm.trans he)
    simp [List.filter_append, hB]

/-- `deleteTask` leaves the records of every other owner unchanged. -/
theorem deleteTask_frame {st : Store} (h : StoreInv st) {A B : MText}
    (hAB : A ≠ B) (i : Nat) :
    ((deleteTask st A i).1.tasks.filter fun e => decide (e.2.owner = B))
      = st.tasks.filter fun e => decide (e.2.owner = B) := by
  cases hl : st.tasks.lookup (makeTaskKey A i) with
  | none => simp only [deleteTask, hl]
  | some t =>
    have hown := (lookup_key_owner h hl).1
    obtain ⟨m₁, m₂, hm, hk⟩ := lookup_decomp hl
    simp only [deleteTask, hl]
    rw [hm, hmRemove_append_left t m₂ hk]
    have hB : decide (t.owner = B) = false :=
      decide_eq_false fun he => hAB (hown.symm.trans he)
    simp [List.filter_append, hB]

/-- `clearCompletedTasks` leaves the records of every other owner
unchanged. -/
theorem clearCompletedTasks_frame {st : Store} (h : GoodStore st)
    {A B : MText} (hA : '_' ∉ A) (hAB : A ≠ B) :
    ((clearCompletedTasks st A).1.tasks.filter fun e => decide (e.2.owner = B))
      = st.tasks.filter fun e => decide (e.2.owner = B) := by
  rw [clearCompletedTasks_tasks_eq h hA, List.filter_filter]
  refine List.filter_congr fun e he => ?_
  by_cases hB : e.2.owner = B
  · have hA2 : decide (e.2.owner = A) = false :=
      decide_eq_false fun he2 => hAB (he2.symm.trans hB)
    have hBA : ¬B = A := fun hba => hAB hba.symm
    simp [hA2, hB, hBA]
  · simp [hB]

/-- Running an appended sequence is running the pieces in order. -/
theorem run_append (st : Store) (l1 l2 : List Op) :
    run st (l1 ++ l2) = run (run st l1) l2 := by
  simp [run, List.foldl_append]

/-- Running one more operation first. -/
theorem run_cons (st : Store) (op : Op) (l : List Op) :
    run st (op :: l) = run (applyOp st op) l := rfl

/-- The later of two `put`s at one key wins. -/
theorem hmPut_hmPut (m : List (MText × Task)) (k : MText) (v w : Task) :
    hmPut (hmPut m k v) k w = hmPut m k w := by
  induction m with
  | nil => simp [hmPut]
  | cons e m ih =>
    by_cases h : e.1 = k
    · simp [hmPut, h]
    · simp [hmPut, h, ih]

/-- Claim C10: in every reachable store state the counter strictly exceeds
every stored id, ids are globally distinct across owners (they are drawn
from the one shared counter, which `addTask` hands out regardless of the
caller), and every record sits at the key encoded from its own
`(owner, id)` pair; every operation, the upgrade round-trip included,
preserves this, and an id `addTask` returns never equals a stored id. -/
theorem C10_shared_counter (ops : List Op) :
    (∀ e ∈ (run initStore ops).tasks, e.2.id < (run initStore ops).nextTaskId) ∧
    ((run initStore ops).tasks.map fun e => e.2.id).Nodup ∧
    (∀ e ∈ (run initStore ops).tasks, e.1 = makeTaskKey e.2.owner e.2.id) ∧
    (∀ c t d n, (addTask (run initStore ops) c t d n).2
        = (run initStore ops).nextTaskId) ∧
    ∀ c t d n e, e ∈ (run initStore ops).tasks →
      (addTask (run initStore ops) c t d n).2 ≠ e.2.id := by
  obtain ⟨hb, hco, hids⟩ := reachable_inv ops
  refine ⟨hb, hids, hco, fun c t d n => rfl, fun c t d n e he => ?_⟩
  have hlt := hb e he
  show (run initStore ops).nextTaskId ≠ e.2.id
  omega

/-- Witness for C10 at a concrete run: the id handed out after two
additions differs from the id stored for the first owner. -/
theorem C10_shared_counter_witness :
    (makeTaskKey ['a'] 1, sampleTaskA) ∈ sampleStore.tasks ∧
    (addTask sampleStore ['b'] ['t'] ['d'] 0).2 ≠ sampleTaskA.id :=
  ⟨by decide, (C10_shared_counter sampleOps).2.2.2.2 ['b'] ['t'] ['d'] 0
    (makeTaskKey ['a'] 1, sampleTaskA) (by decide)⟩

/-- Claim C2: `addTask` ids are strictly increasing across any operation
sequence (deletions included), so no id is returned twice and the id of a
record that was ever stored — also one later deleted — is never assigned
again. -/
theorem C2_id_monotone (ops1 ops2 : List Op) (c1 t1 d1 : MText) (n1 : Int)
    (c2 t2 d2 : MText) (n2 : Int) :
    (addTask (run initStore ops1) c1 t1 d1 n1).2
      < (addTask (run initStore (ops1 ++ Op.add c1 t1 d1 n1 :: ops2))
          c2 t2 d2 n2).2 ∧
    ∀ e ∈ (run initStore ops1).tasks,
      e.2.id < (addTask (run initStore (ops1 ++ ops2)) c2 t2 d2 n2).2 := by
  constructor
  · show (run initStore ops1).nextTaskId
      < (run initStore (ops1 ++ Op.add c1 t1 d1 n1 :: ops2)).nextTaskId
    rw [run_append, run_cons]
    have h2 := run_counter_mono ops2
      (applyOp (run initStore ops1) (Op.add c1 t1 d1 n1))
    have h1 : (applyOp (run initStore ops1) (Op.add c1 t1 d1 n1)).nextTaskId
        = (run initStore ops1).nextTaskId + 1 := rfl
    omega
  · intro e he
    have hb := (reachable_inv ops1).1 e he
    show e.2.id < (run initStore (ops1 ++ ops2)).nextTaskId
    rw [run_append]
    have h2 := run_counter_mono ops2 (run initStore ops1)
    omega

/-- Witness for C2 at a concrete run: after adding, deleting and adding
again, the deleted record's id 1 is below the next handed-out id. -/
theorem C2_id_monotone_witness :
    ((makeTaskKey ['a'] 1, sampleTaskA) ∈ (run initStore sampleOps).tasks) ∧
    sampleTaskA.id
      < (addTask (run initStore (sampleOps ++ [Op.delete ['a'] 1]))
          ['a'] ['t'] ['d'] 0).2 :=
  ⟨by decide,
   (C2_id_monotone sampleOps [Op.delete ['a'] 1] ['a'] ['t'] ['d'] 0
      ['a'] ['t'] ['d'] 0).2 (makeTaskKey ['a'] 1, sampleTaskA) (by decide)⟩

/-- Claim C3: serialize-on-teardown followed by rebuild-on-start restores
the very same store — same keys, same records, same counter — so every
owner's `getTasks` is unchanged and the id assigned after the round-trip
strictly exceeds every id assigned before. -/
theorem C3_roundtrip {st : Store} (h : StoreInv st) :
    postupgrade (preupgrade st).1 (preupgrade st).2 = st ∧
    (∀ A, getTasks (postupgrade (preupgrade st).1 (preupgrade st).2) A
        = getTasks st A) ∧
    ∀ c t d n e, e ∈ st.tasks →
      e.2.id < (addTask (postupgrade (preupgrade st).1 (preupgrade st).2)
        c t d n).2 := by
  have hq := postupgrade_preupgrade (keys_nodup_of_inv h)
  refine ⟨hq, fun A => by rw [hq], fun c t d n e he => ?_⟩
  rw [hq]
  show e.2.id < st.nextTaskId
  exact h.1 e he

/-- Witness for C3 at a concrete store: the round-trip restores it
exactly. -/
theorem C3_roundtrip_witness :
    postupgrade (preupgrade sampleStore).1 (preupgrade sampleStore).2
      = sampleStore :=
  (C3_roundtrip (by decide)).1

/-- Claim C1: operations invoked as caller `A` never return, mutate,
delete, or count a record owned by a different `B` — even one with the same
numeric id: the queries return or count only `A`-owned records, and the
mutators leave the list of `B`-owned records exactly unchanged. -/
theorem C1_owner_isolation (st : Store) (A B : MText) (h : GoodStore st)
    (hA : '_' ∉ A) (hAB : A ≠ B) :
    (∀ t ∈ getTasks st A, t.owner ≠ B) ∧
    (∀ i t, getTaskById st A i = some t → t.owner ≠ B) ∧
    (getTaskCount st A
      = (st.tasks.filter fun e => decide (e.2.owner = A)).length) ∧
    (∀ b, ∀ t ∈ getTasksByStatus st A b, t.owner ≠ B) ∧
    (∀ i, ((toggleStatus st A i).1.tasks.filter fun e => decide (e.2.owner = B))
        = st.tasks.filter fun e => decide (e.2.owner = B)) ∧
    (∀ i, ((deleteTask st A i).1.tasks.filter fun e => decide (e.2.owner = B))
        = st.tasks.filter fun e => decide (e.2.owner = B)) ∧
    ((clearCompletedTasks st A).1.tasks.filter fun e => decide (e.2.owner = B))
      = st.tasks.filter fun e => decide (e.2.owner = B) := by
  refine ⟨?_, ?_, getTaskCount_eq h hA, ?_,
    fun i => toggleStatus_frame h.1 hAB i,
    fun i => deleteTask_frame h.1 hAB i,
    clearCompletedTasks_frame h hA hAB⟩
  · intro t ht
    rw [getTasks_eq h hA] at ht
    obtain ⟨e, he, het⟩ := List.mem_map.mp ht
    subst het
    have hA2 : e.2.owner = A := of_decide_eq_true (List.mem_filter.mp he).2
    exact fun hB => hAB (hA2.symm.trans hB)
  · intro i t hl
    have := (lookup_key_owner h.1 hl).1
    exact fun hB => hAB (this.symm.trans hB)
  · intro b t ht
    rw [getTasksByStatus_eq h hA b] at ht
    obtain ⟨e, he, het⟩ := List.mem_map.mp ht
    subst het
    have hand := (List.mem_filter.mp he).2
    have hA2 : e.2.owner = A :=
      of_decide_eq_true (Bool.and_elim_left hand)
    exact fun hB => hAB (hA2.symm.trans hB)

/-- Witness for C1 at a concrete store with one record per owner: caller
`a`'s count covers only its own record, and `b`'s records survive `a`'s
clear unchanged. -/
theorem C1_owner_isolation_witness :
    getTaskCount sampleStore ['a']
      = (sampleStore.tasks.filter fun e => decide (e.2.owner = ['a'])).length ∧
    ((clearCompletedTasks sampleStore ['a']).1.tasks.filter
        fun e => decide (e.2.owner = ['b']))
      = sampleStore.tasks.filter fun e => decide (e.2.owner = ['b']) :=
  ⟨(C1_owner_isolation sampleStore ['a'] ['b'] (by decide) (by decide)
      (by decide)).2.2.1,
   (C1_owner_isolation sampleStore ['a'] ['b'] (by decide) (by decide)
      (by decide)).2.2.2.2.2.2⟩

/-- Claim C7: the enumeration used by `getTasks`, `getTaskCount` and
`getTasksByStatus` selects a stored record exactly when the owner segment
of its key equals the caller's token: the fixed delimiter appended after
the owner token rules out substring and prefix collisions, and the queries
reduce to an exact owner comparison. -/
theorem C7_exact_owner_match (st : Store) (A : MText) (h : GoodStore st)
    (hA : '_' ∉ A) :
    (∀ o i, '_' ∉ o →
      ((makeUserPrefix A).isPrefixOf (makeTaskKey o i) = true ↔ o = A)) ∧
    (∀ e ∈ st.tasks,
      (makeUserPrefix A).isPrefixOf e.1 = decide (e.2.owner = A)) ∧
    (getTasks st A
      = ((st.tasks.filter fun e => decide (e.2.owner = A)).map fun e => e.2)) ∧
    (getTaskCount st A
      = (st.tasks.filter fun e => decide (e.2.owner = A)).length) ∧
    ∀ b, getTasksByStatus st A b
      = ((st.tasks.filter fun e =>
          decide (e.2.owner = A) && e.2.completed == b).map fun e => e.2) :=
  ⟨fun _ i ho => (userFilterMatch i hA ho).trans eq_comm,
   filter_test_eq h hA, getTasks_eq h hA, getTaskCount_eq h hA,
   fun b => getTasksByStatus_eq h hA b⟩

/-- Witness for C7 at concrete tokens: `a`'s filter matches `a`'s key and
the concrete store's enumeration is the exact owner filter. -/
theorem C7_exact_owner_match_witness :
    ((makeUserPrefix ['a']).isPrefixOf (makeTaskKey ['a'] 7) = true
      ↔ (['a'] : MText) = ['a']) ∧
    getTasks sampleStore ['a']
      = ((sampleStore.tasks.filter
          fun e => decide (e.2.owner = ['a'])).map fun e => e.2) :=
  ⟨(C7_exact_owner_match sampleStore ['a'] (by decide) (by decide)).1 ['a'] 7
      (by decide),
   (C7_exact_owner_match sampleStore ['a'] (by decide) (by decide)).2.2.1⟩

/-- Claim C6: `toggleStatus`, `deleteTask` and `addComment` on an id for
which the caller owns no record — the id is absent, or the record with that
id belongs to someone else — return `false` and leave the whole store,
counter included, unchanged. -/
theorem C6_not_found {st : Store} (h : StoreInv st) {A : MText} {i : Nat}
    (habs : ∀ e ∈ st.tasks, ¬(e.2.owner = A ∧ e.2.id = i)) (tx : MText) :
    toggleStatus st A i = (st, false) ∧
    deleteTask st A i = (st, false) ∧
    addComment st A i tx = (st, false) := by
  have hl : st.tasks.lookup (makeTaskKey A i) = none := by
    cases hcase : st.tasks.lookup (makeTaskKey A i) with
    | none => rfl
    | some t =>
      obtain ⟨ho, hi⟩ := lookup_key_owner h hcase
      exact absurd ⟨ho, hi⟩ (habs _ (mem_of_lookup hcase))
  refine ⟨?_, ?_, ?_⟩ <;> simp [toggleStatus, deleteTask, addComment, hl]

/-- Witness for C6 at a concrete store: id 2 belongs to owner `b`, so
caller `a`'s mutators return `false` and change nothing. -/
theorem C6_not_found_witness :
    toggleStatus sampleStore ['a'] 2 = (sampleStore, false) ∧
    deleteTask sampleStore ['a'] 2 = (sampleStore, false) ∧
    addComment sampleStore ['a'] 2 ['x'] = (sampleStore, false) :=
  C6_not_found (by decide) (by decide) ['x']

/-- Claim C8: for a record the caller owns, `toggleStatus` flips only the
`completed` field — id, title, description, createdAt, owner, comments and
every other key's binding are untouched — and toggling twice restores the
original store exactly. -/
theorem C8_toggle_symmetry (st : Store) (A : MText) (i : Nat) {t : Task}
    (hl : st.tasks.lookup (makeTaskKey A i) = some t) :
    ((toggleStatus st A i).1.tasks.lookup (makeTaskKey A i)
        = some { t with completed := !t.completed }) ∧
    (∀ k, k ≠ makeTaskKey A i →
      (toggleStatus st A i).1.tasks.lookup k = st.tasks.lookup k) ∧
    (toggleStatus st A i).1.nextTaskId = st.nextTaskId ∧
    (toggleStatus (toggleStatus st A i).1 A i).1 = st := by
  have h1 : (toggleStatus st A i).1
      = { st with
          tasks := hmPut st.tasks (makeTaskKey A i)
            ({ t with completed := !t.completed }) } := by
    simp only [toggleStatus, hl]
  refine ⟨?_, ?_, ?_, ?_⟩
  · rw [h1]
    exact lookup_hmPut_self _ _ _
  · intro k hk
    rw [h1]
    exact lookup_hmPut_ne _ _ hk
  · rw [h1]
  · rw [h1]
    have hl2 := lookup_hmPut_self st.tasks (makeTaskKey A i)
      ({ t with completed := !t.completed })
    simp only [toggleStatus, hl2]
    rw [hmPut_hmPut, Bool.not_not]
    have heta : ({ t with completed := t.completed } : Task) = t := rfl
    rw [heta, hmPut_lookup_eq hl]

/-- Witness for C8 at a concrete store: toggling task 1 of owner `a` twice
restores the store. -/
theorem C8_toggle_symmetry_witness :
    (toggleStatus (toggleStatus sampleStore ['a'] 1).1 ['a'] 1).1
      = sampleStore :=
  (C8_toggle_symmetry sampleStore ['a'] 1
    (by decide :
      sampleStore.tasks.lookup (makeTaskKey ['a'] 1) = some sampleTaskA)).2.2.2

/-- Claim C5: `clearCompletedTasks` returns exactly the number of the
caller's completed records and removes exactly those: afterwards
`getTasks` returns exactly the caller's previously active records, and
every other owner's records are unchanged. -/
theorem C5_bulk_clear (st : Store) (A B : MText) (h : GoodStore st)
    (hA : '_' ∉ A) (hAB : A ≠ B) :
    (clearCompletedTasks st A).2
      = (st.tasks.filter fun e =>
          decide (e.2.owner = A) && e.2.completed).length ∧
    getTasks (clearCompletedTasks st A).1 A
      = ((st.tasks.filter fun e =>
          decide (e.2.owner = A) && !e.2.completed).map fun e => e.2) ∧
    ((clearCompletedTasks st A).1.tasks.filter fun e => decide (e.2.owner = B))
      = st.tasks.filter fun e => decide (e.2.owner = B) := by
  have hst : GoodStore (clearCompletedTasks st A).1 :=
    ⟨clearCompletedTasks_inv h.1 A,
     fun e he => h.2 e ((foldl_hmRemove_sublist _ _).subset he)⟩
  refine ⟨clearCompletedTasks_count_eq h hA, ?_,
    clearCompletedTasks_frame h hA hAB⟩
  rw [getTasks_eq hst hA, clearCompletedTasks_tasks_eq h hA,
    List.filter_filter]
  refine congrArg _ (List.filter_congr fun e he => ?_)
  cases hqa : decide (e.2.owner = A) <;> cases hc : e.2.completed <;>
    simp [hqa, hc]

/-- Witness for C5: owner `a` has 3 completed and 2 active tasks; the
clear returns 3 and the following `getTasks` is the 2 active tasks. -/
theorem C5_bulk_clear_witness :
    (clearCompletedTasks clearStore ['a']).2
      = (clearStore.tasks.filter fun e =>
          decide (e.2.owner = ['a']) && e.2.completed).length ∧
    (clearCompletedTasks clearStore ['a']).2 = 3 ∧
    getTasks (clearCompletedTasks clearStore ['a']).1 ['a']
      = ((clearStore.tasks.filter fun e =>
          decide (e.2.owner = ['a']) && !e.2.completed).map fun e => e.2) ∧
    (getTasks (clearCompletedTasks clearStore ['a']).1 ['a']).length = 2 :=
  ⟨(C5_bulk_clear clearStore ['a'] ['b'] (by decide) (by decide)
      (by decide)).1,
   by decide,
   (C5_bulk_clear clearStore ['a'] ['b'] (by decide) (by decide)
      (by decide)).2.1,
   by decide⟩

/-- After appending texts one at a time, the record carries its old
comments followed by the new texts in order, and the counter is
untouched. -/
theorem addComments_lookup (texts : List MText) :
    ∀ (st : Store) (A : MText) (i : Nat) (t : Task),
      st.tasks.lookup (makeTaskKey A i) = some t →
      (addComments st A i texts).tasks.lookup (makeTaskKey A i)
          = some ({ t with comments := t.comments ++ texts }) ∧
      (addComments st A i texts).nextTaskId = st.nextTaskId := by
  induction texts with
  | nil =>
    intro st A i t hl
    refine ⟨?_, rfl⟩
    simpa using hl
  | cons tx texts ih =>
    intro st A i t hl
    have hstep : (addComment st A i tx).1
        = { st with
            tasks := hmPut st.tasks (makeTaskKey A i)
              ({ t with comments := t.comments ++ [tx] }) } := by
      simp only [addComment, hl]
    have hl2 : ((addComment st A i tx).1).tasks.lookup (makeTaskKey A i)
        = some ({ t with comments := t.comments ++ [tx] }) := by
      rw [hstep]
      exact lookup_hmPut_self _ _ _
    have hrec := ih (addComment st A i tx).1 A i _ hl2
    have hrw : addComments st A i (tx :: texts)
        = addComments (addComment st A i tx).1 A i texts := rfl
    refine ⟨?_, ?_⟩
    · rw [hrw, hrec.1]
      simp
    · rw [hrw, hrec.2, hstep]

/-- Every single `addComment` of an append run succeeds. -/
theorem addComments_step_true (l1 : List MText) (tx : MText)
    {st : Store} {A : MText} {i : Nat} {t : Task}
    (hl : st.tasks.lookup (makeTaskKey A i) = some t) :
    (addComment (addComments st A i l1) A i tx).2 = true := by
  have h1 := (addComments_lookup l1 st A i t hl).1
  simp only [addComment, h1]

/-- Claim C9 is false as stated: `clearCompletedTasks` is listed among the
operations that never shorten a comment sequence, yet deleting a completed
task removes its comments: after one successful `addComment` the sequence
is `["x"]`, and after `clearCompletedTasks` the caller's `getComments` for
that id is empty. -/
theorem C9_counterexample :
    (addComment (run initStore [Op.add ['a'] ['t'] ['d'] 0]) ['a'] 1 ['x']).2
        = true ∧
    getComments commentStore ['a'] 1 = [['x']] ∧
    getComments (clearCompletedTasks commentStore ['a']).1 ['a'] 1 = [] := by
  decide

/-- Claim C9 (amended): for a task of the caller with comment sequence
`cs`, N `addComment` calls all succeed and extend the sequence to
`cs ++ texts` in call order (so a fresh task ends with exactly the texts);
`toggleStatus`, `addTask` and the durability round-trip never alter the
task's comment sequence, and `clearCompletedTasks` keeps every record it
does not delete unchanged — a completed record it deletes vanishes with
its comments, which is what the original claim overlooked. -/
theorem C9_append_only (st : Store) (A : MText) (i : Nat) (t : Task)
    (texts : List MText) (h : StoreInv st)
    (hl : st.tasks.lookup (makeTaskKey A i) = some t) :
    (getComments (addComments st A i texts) A i = t.comments ++ texts) ∧
    (∀ l1 tx l2, texts = l1 ++ tx :: l2 →
      (addComment (addComments st A i l1) A i tx).2 = true) ∧
    (getComments (toggleStatus st A i).1 A i = getComments st A i) ∧
    (∀ c ttl d n,
      getComments (addTask st c ttl d n).1 A i = getComments st A i) ∧
    (getComments (postupgrade (preupgrade st).1 (preupgrade st).2) A i
      = getComments st A i) ∧
    ∀ e ∈ (clearCompletedTasks st A).1.tasks, e ∈ st.tasks := by
  have hii : t.id = i := (lookup_key_owner h hl).2
  have hbb : t.id < st.nextTaskId := h.1 _ (mem_of_lookup hl)
  refine ⟨?_, ?_, ?_, ?_, ?_, ?_⟩
  · have h1 := (addComments_lookup texts st A i t hl).1
    simp only [getComments, h1]
  · intro l1 tx l2 hsplit
    exact addComments_step_true l1 tx hl
  · have h1 : (toggleStatus st A i).1.tasks.lookup (makeTaskKey A i)
        = some ({ t with completed := !t.completed }) := by
      simp only [toggleStatus, hl]
      exact lookup_hmPut_self _ _ _
    simp only [getComments, h1, hl]
  · intro c ttl d n
    have hne : makeTaskKey c st.nextTaskId ≠ makeTaskKey A i := by
      intro he
      have h2 := (makeTaskKey_inj he).2
      omega
    have h1 : (addTask st c ttl d n).1.tasks.lookup (makeTaskKey A i)
        = st.tasks.lookup (makeTaskKey A i) := by
      rw [addTask_def]
      exact lookup_hmPut_ne _ _ fun hh => hne hh.symm
    simp only [getComments, h1]
  · rw [postupgrade_preupgrade (keys_nodup_of_inv h)]
  · exact fun e he => (foldl_hmRemove_sublist _ _).subset he

/-- Witness for the amended C9 at a concrete store: two appended comments
are returned in call order. -/
theorem C9_append_only_witness :
    getComments (addComments sampleStore ['a'] 1 [['x'], ['y']]) ['a'] 1
      = sampleTaskA.comments ++ [['x'], ['y']] :=
  (C9_append_only sampleStore ['a'] 1 sampleTaskA [['x'], ['y']] (by decide)
    (by decide)).1

/-- Claim C4 is false as stated: `postupgrade` performs no corruption
check. With a durable pair whose counter was reset to the initial 1 while
a record with id 1 is present — corrupt durable state, in which the claim
says no servable store may be produced — the rebuild still yields a store
that serves requests, and the next `addTask` hands out the already-stored
id 1 again. -/
theorem C4_counterexample :
    (postupgrade 1 [(makeTaskKey ['a'] 1, sampleTaskA)]).tasks
        = [(makeTaskKey ['a'] 1, sampleTaskA)] ∧
    getTaskCount (postupgrade 1 [(makeTaskKey ['a'] 1, sampleTaskA)])
        ['a'] = 1 ∧
    (addTask (postupgrade 1 [(makeTaskKey ['a'] 1, sampleTaskA)])
        ['a'] ['t'] ['d'] 0).2 = 1 ∧
    sampleTaskA.id = 1 := by
  decide

/-- Claim C4 (amended): the rebuild step validates nothing: for every
counter value and every flat sequence with distinct keys it produces a
servable store holding exactly those entries and that counter. It never
silently resets to empty, but it never refuses to start either; the next
assigned id is the restored counter even when a stored record already
carries it. -/
theorem C4_no_validation (counter : Nat) (entries : List (MText × Task))
    (h : (entries.map Prod.fst).Nodup) :
    (postupgrade counter entries).tasks = entries ∧
    (postupgrade counter entries).nextTaskId = counter ∧
    ∀ c t d n, (addTask (postupgrade counter entries) c t d n).2 = counter := by
  refine ⟨?_, rfl, fun c t d n => rfl⟩
  show entries.foldl (fun m e => hmPut m e.1 e.2) [] = entries
  have hf := foldl_hmPut_append entries [] (by simpa using h)
  simpa using hf

/-- Witness for the amended C4 at the corrupt concrete input. -/
theorem C4_no_validation_witness :
    (postupgrade 1 [(makeTaskKey ['a'] 1, sampleTaskA)]).tasks
      = [(makeTaskKey ['a'] 1, sampleTaskA)] :=
  (C4_no_validation 1 [(makeTaskKey ['a'] 1, sampleTaskA)] (by decide)).1

end TodoBackend
